import Mathlib

/-!
Verification of the chunked file-upload client (`client.py`,
`RobustFileTransferClient`).

The client is embedded shallowly:

* Bytes are `Nat` values, byte strings are `List Nat` (every element `< 256`).
* `base64.b64encode` is modelled as `b64encode` on byte lists; the server-side
  decoder (not part of the client source) is modelled from the spec as
  `b64decode`.
* The chunker (the `f.read(chunk_size)` loop of `upload_file`) is `chunksOf`.
* Network I/O is an oracle: each request attempt yields a `NetOutcome`
  (an HTTP status code, a timeout, a connection error, or any other
  exception) — exactly the cases `_send_chunk_safe` distinguishes.
* The retry loop of `upload_file` is `tryChunk`/`uploadChunks`; the observable
  behaviour of one call to `upload_file` is an `UploadState`: the list of send
  attempts issued (chunk index, 1-based attempt number), the internal
  `successful_chunks` counter, the returned boolean, and the printed messages.
-/

namespace Client

/-- `self.chunk_size = 512` in `RobustFileTransferClient.__init__`. -/
def chunk_size : Nat := 512

/-- `self.max_retries = 5` in `RobustFileTransferClient.__init__`. -/
def max_retries : Nat := 5

/-- `self.retry_delay = 2` in `RobustFileTransferClient.__init__`. -/
def retry_delay : Nat := 2

/-- The standard base64 alphabet (RFC 4648), as used by `base64.b64encode`. -/
def b64alphabet : String :=
  "ABCDEFGHIJKLMNOPQRSTUVWXYZabcdefghijklmnopqrstuvwxyz0123456789+/"

/-- The alphabet as a character list; character `i` encodes the 6-bit value `i`. -/
def b64chars : List Char := b64alphabet.toList

/-- First index of a character in a list, if present. -/
def findIdx (c : Char) : List Char → Option Nat
  | [] => none
  | d :: ds => if d = c then some 0 else (findIdx c ds).map (· + 1)

/-- The 6-bit value a base64 alphabet character stands for. -/
def sextOfChar (c : Char) : Option Nat := findIdx c b64chars

/-- The base64 alphabet character of a 6-bit value (only used for `n < 64`). -/
def encChar (n : Nat) : Char := b64chars.getD n 'A'

/-- `base64.b64encode` on a byte list: each group of three bytes becomes four
alphabet characters; a trailing group of one or two bytes is padded with
one or two `=` characters.  Division and remainder by 4, 16 and 64 express
the 6-bit regrouping of the 8-bit bytes. -/
def b64encode : List Nat → List Char
  | [] => []
  | [a] => [encChar (a / 4), encChar (a % 4 * 16), '=', '=']
  | [a, b] => [encChar (a / 4), encChar (a % 4 * 16 + b / 16), encChar (b % 16 * 4), '=']
  | a :: b :: c :: rest =>
      encChar (a / 4) :: encChar (a % 4 * 16 + b / 16) :: encChar (b % 16 * 4 + c / 64) ::
        encChar (c % 64) :: b64encode rest

/-- Maps every character of a candidate encoding to its 6-bit value; fails if
any character is not in the base64 alphabet. -/
def sextsOfChars : List Char → Option (List Nat)
  | [] => some []
  | c :: cs =>
    match sextOfChar c, sextsOfChars cs with
    | some s, some ss => some (s :: ss)
    | _, _ => none

/-- Regroups a list of 6-bit values into 8-bit bytes: four sextets give three
bytes; a trailing group of three or two sextets (from a padded final block)
gives two bytes or one byte. -/
def sextsToBytes : List Nat → List Nat
  | s1 :: s2 :: s3 :: s4 :: rest =>
      (s1 * 4 + s2 / 16) :: (s2 % 16 * 16 + s3 / 4) :: (s3 % 4 * 64 + s4) :: sextsToBytes rest
  | [s1, s2, s3] => [s1 * 4 + s2 / 16, s2 % 16 * 16 + s3 / 4]
  | [s1, s2] => [s1 * 4 + s2 / 16]
  | _ => []

/-- Modelled from the spec: the server-side base64 decoder is not part of the
client source (`client.py` only encodes); the spec (section 4.2) requires the
transport decoding to be the inverse of the encoding.  This is the standard
base64 decode: drop the `=` padding, map the characters back to their 6-bit
values, and regroup them into bytes. -/
def b64decode (cs : List Char) : Option (List Nat) :=
  (sextsOfChars (cs.filter (fun c => c != '='))).map sextsToBytes

/-- The chunker loop of `upload_file` with an explicit iteration bound:
`f.read(S)` is `take S` / `drop S`; the loop stops on an empty read.
When `S = 0` Python's `f.read(0)` returns the empty byte string at once, so no
chunk is produced; when `1 ≤ S` every iteration consumes at least one byte, so
`bs.length` iterations always suffice. -/
def chunksOfFuel (S : Nat) : Nat → List Nat → List (List Nat)
  | _, [] => []
  | 0, _ :: _ => []
  | fuel + 1, b :: bs => ((b :: bs).take S) :: chunksOfFuel S fuel ((b :: bs).drop S)

/-- The chunker of `upload_file`: the `while True: chunk = f.read(self.chunk_size)`
loop, producing the list `chunks` of at-most-`S`-byte slices of the file. -/
def chunksOf (S : Nat) (bs : List Nat) : List (List Nat) :=
  if S = 0 then [] else chunksOfFuel S bs.length bs

/-- The outcome of one HTTP request, as distinguished by the exception handlers
of `_send_chunk_safe`: a response with some status code, a
`requests.exceptions.Timeout`, a `requests.exceptions.ConnectionError`, or any
other exception. -/
inductive NetOutcome where
  | status (code : Nat)
  | timeout
  | connError
  | otherExc
deriving DecidableEq

/-- Whether `_send_chunk_safe` treats a request outcome as success:
`response.status_code == 200`; every exception path returns `False`. -/
def sendOk : NetOutcome → Bool
  | .status c => c == 200
  | _ => false

/-- The diagnostics `_send_chunk_safe` prints: the per-attempt banner and, on
each distinct failure branch, a dedicated error message. -/
inductive Diag where
  | attemptBanner (pos total attempt : Nat)
  | sentOkMsg
  | httpErrMsg (code : Nat)
  | timeoutMsg
  | connErrMsg
  | excMsg
deriving DecidableEq

/-- The diagnostics that report an error (everything except the banner and the
success message). -/
def isErrDiag : Diag → Bool
  | .httpErrMsg _ => true
  | .timeoutMsg => true
  | .connErrMsg => true
  | .excMsg => true
  | _ => false

/-- The query-parameter map built in `_send_chunk_safe`: abbreviated keys
`f`, `d`, `c`, `t`, `end`; `d` is the base64-encoded payload; `c` and `t` are
`str(chunk_index)` and `str(total_chunks)`; `end` compares
`chunk_index == total_chunks - 1` (Python integer arithmetic, hence `Int`). -/
def sendParams (filename : String) (chunkData : List Nat)
    (chunkIndex totalChunks : Nat) : List (String × String) :=
  [("f", filename),
   ("d", String.mk (b64encode chunkData)),
   ("c", toString chunkIndex),
   ("t", toString totalChunks),
   ("end", if (chunkIndex : Int) = (totalChunks : Int) - 1 then "1" else "0")]

/-- What one call of `_send_chunk_safe` does: the request it issues (its
query parameters), the boolean it returns, and the diagnostics it prints. -/
structure SendAttempt where
  requestParams : List (String × String)
  ok : Bool
  diags : List Diag

/-- Model of `_send_chunk_safe(filename, chunk_data, chunk_index, total_chunks,
attempt)`.  The request outcome `o` stands for what `requests.get` produced.
The function never raises: all exception branches are caught and return
`False` after printing a diagnostic. -/
def sendChunkSafe (filename : String) (chunkData : List Nat)
    (chunkIndex totalChunks attempt : Nat) (o : NetOutcome) : SendAttempt :=
  let banner := Diag.attemptBanner (chunkIndex + 1) totalChunks attempt
  { requestParams := sendParams filename chunkData chunkIndex totalChunks
    ok := sendOk o
    diags :=
      match o with
      | .status c => if c = 200 then [banner, .sentOkMsg] else [banner, .httpErrMsg c]
      | .timeout => [banner, .timeoutMsg]
      | .connError => [banner, .connErrMsg]
      | .otherExc => [banner, .excMsg] }

/-- The messages `upload_file` prints. `headerMsg` bundles the two header lines
(file size, chunk size); `totalMsg` is the chunk count line; `retryNotice` is
the inter-retry delay notice; `chunkAborted` is the failure line, carrying the
1-based position of the failing chunk and the retry budget; `uploadedMsg` is
the success line with the success counter and total; `progressMsg` is the
every-ten-chunks progress line. -/
inductive Msg where
  | fileNotFound
  | headerMsg (size chunkSize : Nat)
  | totalMsg (total : Nat)
  | retryNotice (nextAttempt delaySec : Nat)
  | progressMsg (done total : Nat)
  | chunkAborted (pos retries : Nat)
  | uploadedMsg (sent total : Nat)
deriving DecidableEq

/-- The observable behaviour of one `upload_file` call: the send attempts
issued (chunk index, 1-based attempt number) in order of issuance, the final
value of the `successful_chunks` counter, the returned boolean, and the
printed messages. -/
structure UploadState where
  sends : List (Nat × Nat)
  sent : Nat
  retval : Bool
  msgs : List Msg

/-- The inner retry loop `for attempt in range(self.max_retries)` for chunk
`i`: `fuel` is the number of attempts still allowed, `a` the 1-based number of
the current attempt (the code passes `attempt + 1`).  Returns the attempts
issued, the retry notices printed (printed only when further attempts remain,
i.e. `attempt < self.max_retries - 1`), and whether the chunk was delivered. -/
def tryChunk (net : Nat → Nat → NetOutcome) (i : Nat) :
    Nat → Nat → List (Nat × Nat) × List Msg × Bool
  | 0, _ => ([], [], false)
  | fuel + 1, a =>
    if sendOk (net i a) then ([(i, a)], [], true)
    else if fuel = 0 then ([(i, a)], [], false)
    else
      let r := tryChunk net i fuel (a + 1)
      ((i, a) :: r.1, Msg.retryNotice (a + 1) retry_delay :: r.2.1, r.2.2)

/-- The outer loop `for i, chunk in enumerate(chunks)` of `upload_file`:
`i` is the index of the first remaining chunk, `sent` the current value of
`successful_chunks`.  On a delivered chunk the counter is incremented and a
progress line is printed every ten chunks; on an exhausted retry budget the
failure line is printed and the loop returns `False` at once; after the last
chunk the success line is printed and the loop returns `True`. -/
def uploadChunks (net : Nat → Nat → NetOutcome) (R : Nat) :
    List (List Nat) → Nat → Nat → Nat → UploadState
  | [], _i, total, sent => ⟨[], sent, true, [.uploadedMsg sent total]⟩
  | _chunk :: rest, i, total, sent =>
    let t := tryChunk net i R 1
    if t.2.2 then
      let prog : List Msg := if (i + 1) % 10 = 0 then [.progressMsg (i + 1) total] else []
      let st := uploadChunks net R rest (i + 1) total (sent + 1)
      ⟨t.1 ++ st.sends, st.sent, st.retval, t.2.1 ++ prog ++ st.msgs⟩
    else
      ⟨t.1, sent, false, t.2.1 ++ [.chunkAborted (i + 1) R]⟩

/-- Model of `upload_file(file_path)`.  `file` is `none` when
`file_path.exists()` is false — then the not-found message is printed and
`False` returned before any chunking or network activity; otherwise the file
bytes are chunked and driven through the retry loop. -/
def upload_file (net : Nat → Nat → NetOutcome) (R S : Nat)
    (file : Option (List Nat)) : UploadState :=
  match file with
  | none => ⟨[], 0, false, [.fileNotFound]⟩
  | some bytes =>
    let chunks := chunksOf S bytes
    let st := uploadChunks net R chunks 0 chunks.length 0
    { st with msgs := .headerMsg bytes.length S :: .totalMsg chunks.length :: st.msgs }

/-- Model of `test_connection_simple`: returns `True` exactly when the probe
request yields status code 200; any other status code and every exception
return `False`. -/
def test_connection_simple : NetOutcome → Bool
  | .status c => c == 200
  | _ => false

/-- Stated from the spec's words (section 6): "any 2xx response counts as
healthy".  Used only to compare the spec's health criterion with the code's. -/
def healthySpec2xx : NetOutcome → Bool
  | .status c => decide (200 ≤ c ∧ c < 300)
  | _ => false

/-- A transport that answers 200 to every request. -/
def netAllOk : Nat → Nat → NetOutcome := fun _ _ => .status 200

/-- A transport that permanently answers 500 for chunk `k` and 200 for every
other chunk. -/
def netFailAt (k : Nat) : Nat → Nat → NetOutcome :=
  fun i _ => if i = k then .status 500 else .status 200

/-- A five-byte file; with chunk size 1 it yields five one-byte chunks. -/
def bytes5 : List Nat := [10, 20, 30, 40, 50]

/-! ## Properties of the base64 alphabet tables -/

theorem sextOfChar_encChar_fin : ∀ t : Fin 64, sextOfChar (encChar t.val) = some t.val := by
  decide

theorem encChar_ne_pad_fin : ∀ t : Fin 64, encChar t.val ≠ '=' := by decide

theorem sextOfChar_encChar {s : Nat} (hs : s < 64) : sextOfChar (encChar s) = some s :=
  sextOfChar_encChar_fin ⟨s, hs⟩

theorem encChar_ne_pad {s : Nat} (hs : s < 64) : encChar s ≠ '=' :=
  encChar_ne_pad_fin ⟨s, hs⟩

theorem sextsOfChars_cons {c : Char} {cs : List Char} {s : Nat} {ss : List Nat}
    (h : sextOfChar c = some s) (hs : sextsOfChars cs = some ss) :
    sextsOfChars (c :: cs) = some (s :: ss) := by
  simp [sextsOfChars, h, hs]

theorem b64decode_cons4 {c1 c2 c3 c4 : Char} {cs : List Char} {s1 s2 s3 s4 : Nat} {bs : List Nat}
    (hne1 : c1 ≠ '=') (hne2 : c2 ≠ '=') (hne3 : c3 ≠ '=') (hne4 : c4 ≠ '=')
    (h1 : sextOfChar c1 = some s1) (h2 : sextOfChar c2 = some s2)
    (h3 : sextOfChar c3 = some s3) (h4 : sextOfChar c4 = some s4)
    (hrec : b64decode cs = some bs) :
    b64decode (c1 :: c2 :: c3 :: c4 :: cs) =
      some ((s1 * 4 + s2 / 16) :: (s2 % 16 * 16 + s3 / 4) :: (s3 % 4 * 64 + s4) :: bs) := by
  have e1 : (c1 != '=') = true := bne_iff_ne.mpr hne1
  have e2 : (c2 != '=') = true := bne_iff_ne.mpr hne2
  have e3 : (c3 != '=') = true := bne_iff_ne.mpr hne3
  have e4 : (c4 != '=') = true := bne_iff_ne.mpr hne4
  simp only [b64decode] at hrec ⊢
  rcases Option.map_eq_some'.mp hrec with ⟨ss, hss, hbs⟩
  have hfil : (c1 :: c2 :: c3 :: c4 :: cs).filter (fun c => c != '=') =
      c1 :: c2 :: c3 :: c4 :: cs.filter (fun c => c != '=') := by
    simp only [List.filter_cons, e1, e2, e3, e4, if_true]
  rw [hfil, sextsOfChars_cons h1 (sextsOfChars_cons h2 (sextsOfChars_cons h3
    (sextsOfChars_cons h4 hss)))]
  simp [sextsToBytes, hbs]

/-- C3: for every byte sequence, including the empty one, all-zero ones, and
ones whose length is not a multiple of three (the encoding's block size),
decoding the base64 encoding returns the original bytes:
`decode(encode(b)) = b`. -/
theorem b64_roundtrip : ∀ bs : List Nat, (∀ x ∈ bs, x < 256) →
    b64decode (b64encode bs) = some bs := by
  intro bs
  induction bs using b64encode.induct with
  | case1 => intro _; rfl
  | case2 a =>
    intro h
    have ha : a < 256 := h a (by simp)
    have hb1 : a / 4 < 64 := by omega
    have hb2 : a % 4 * 16 < 64 := by omega
    have e1 : (encChar (a / 4) != '=') = true := bne_iff_ne.mpr (encChar_ne_pad hb1)
    have e2 : (encChar (a % 4 * 16) != '=') = true := bne_iff_ne.mpr (encChar_ne_pad hb2)
    have epad : (('=' : Char) != '=') = false := by decide
    simp only [b64encode, b64decode]
    have hfil : [encChar (a / 4), encChar (a % 4 * 16), '=', '='].filter (fun c => c != '=') =
        [encChar (a / 4), encChar (a % 4 * 16)] := by
      simp [List.filter_cons, List.filter_nil, e1, e2, epad]
    rw [hfil, sextsOfChars_cons (sextOfChar_encChar hb1)
      (sextsOfChars_cons (sextOfChar_encChar hb2)
        (show sextsOfChars ([] : List Char) = some ([] : List Nat) from rfl))]
    simp only [Option.map_some', sextsToBytes, Option.some.injEq, List.cons.injEq, and_true]
    omega
  | case3 a b =>
    intro h
    have ha : a < 256 := h a (by simp)
    have hb : b < 256 := h b (by simp)
    have hb1 : a / 4 < 64 := by omega
    have hb2 : a % 4 * 16 + b / 16 < 64 := by omega
    have hb3 : b % 16 * 4 < 64 := by omega
    have e1 : (encChar (a / 4) != '=') = true := bne_iff_ne.mpr (encChar_ne_pad hb1)
    have e2 : (encChar (a % 4 * 16 + b / 16) != '=') = true :=
      bne_iff_ne.mpr (encChar_ne_pad hb2)
    have e3 : (encChar (b % 16 * 4) != '=') = true := bne_iff_ne.mpr (encChar_ne_pad hb3)
    have epad : (('=' : Char) != '=') = false := by decide
    simp only [b64encode, b64decode]
    have hfil : [encChar (a / 4), encChar (a % 4 * 16 + b / 16), encChar (b % 16 * 4),
        '='].filter (fun c => c != '=') =
        [encChar (a / 4), encChar (a % 4 * 16 + b / 16), encChar (b % 16 * 4)] := by
      simp [List.filter_cons, List.filter_nil, e1, e2, e3, epad]
    rw [hfil, sextsOfChars_cons (sextOfChar_encChar hb1)
      (sextsOfChars_cons (sextOfChar_encChar hb2)
        (sextsOfChars_cons (sextOfChar_encChar hb3)
          (show sextsOfChars ([] : List Char) = some ([] : List Nat) from rfl)))]
    simp only [Option.map_some', sextsToBytes, Option.some.injEq, List.cons.injEq, and_true]
    exact ⟨by omega, by omega⟩
  | case4 a b c rest ih =>
    intro h
    have ha : a < 256 := h a (by simp)
    have hb : b < 256 := h b (by simp)
    have hc : c < 256 := h c (by simp)
    have hrest : b64decode (b64encode rest) = some rest :=
      ih (fun x hx => h x (by simp [hx]))
    have hb1 : a / 4 < 64 := by omega
    have hb2 : a % 4 * 16 + b / 16 < 64 := by omega
    have hb3 : b % 16 * 4 + c / 64 < 64 := by omega
    have hb4 : c % 64 < 64 := by omega
    have key := b64decode_cons4 (encChar_ne_pad hb1) (encChar_ne_pad hb2)
      (encChar_ne_pad hb3) (encChar_ne_pad hb4)
      (sextOfChar_encChar hb1) (sextOfChar_encChar hb2)
      (sextOfChar_encChar hb3) (sextOfChar_encChar hb4) hrest
    simp only [b64encode]
    rw [key]
    have e1 : a / 4 * 4 + (a % 4 * 16 + b / 16) / 16 = a := by omega
    have e2 : (a % 4 * 16 + b / 16) % 16 * 16 + (b % 16 * 4 + c / 64) / 4 = b := by omega
    have e3 : (b % 16 * 4 + c / 64) % 4 * 64 + c % 64 = c := by omega
    rw [e1, e2, e3]

/-- Witness for C3: a concrete payload containing zero bytes whose length (5)
is not a multiple of the three-byte block size round-trips. -/
theorem b64_roundtrip_witness :
    (∀ x ∈ [0, 0, 104, 105, 33], x < 256) ∧
      b64decode (b64encode [0, 0, 104, 105, 33]) = some [0, 0, 104, 105, 33] :=
  ⟨by decide, b64_roundtrip [0, 0, 104, 105, 33] (by decide)⟩

/-! ## Properties of the chunker -/

theorem chunksOfFuel_nil (S : Nat) : ∀ fuel, chunksOfFuel S fuel [] = [] := by
  intro fuel; cases fuel <;> rfl

theorem ceil_div_step {n S : Nat} (hS : 0 < S) (hn : 0 < n) :
    (n - S + S - 1) / S + 1 = (n + S - 1) / S := by
  rcases Nat.lt_or_ge n S with h | h
  · have h0 : n - S = 0 := Nat.sub_eq_zero_of_le (le_of_lt h)
    have h1 : (0 + S - 1) / S = 0 := by
      rw [show 0 + S - 1 = S - 1 from by omega]
      exact Nat.div_eq_of_lt (by omega)
    have h2 : (n + S - 1) / S = 1 := Nat.div_eq_of_lt_le (by omega) (by omega)
    rw [h0, h1, h2]
  · have h1 : n - S + S - 1 = n - 1 := by omega
    have h2 : n + S - 1 = n - 1 + S := by omega
    rw [h1, h2, Nat.add_div_right _ hS]

theorem chunksOfFuel_flatten (S : Nat) (hS : 0 < S) :
    ∀ fuel (bs : List Nat), bs.length ≤ fuel → (chunksOfFuel S fuel bs).flatten = bs := by
  intro fuel
  induction fuel with
  | zero =>
    intro bs hbs
    have hb : bs = [] := List.length_eq_zero.mp (Nat.le_zero.mp hbs)
    subst hb; rfl
  | succ f ih =>
    intro bs hbs
    cases bs with
    | nil => rfl
    | cons b bs' =>
      simp only [chunksOfFuel, List.flatten_cons]
      rw [ih ((b :: bs').drop S)
        (by simp only [List.length_drop, List.length_cons] at hbs ⊢; omega)]
      exact List.take_append_drop S (b :: bs')

theorem chunksOfFuel_length (S : Nat) (hS : 0 < S) :
    ∀ fuel (bs : List Nat), bs.length ≤ fuel →
      (chunksOfFuel S fuel bs).length = (bs.length + S - 1) / S := by
  intro fuel
  induction fuel with
  | zero =>
    intro bs hbs
    have hb : bs = [] := List.length_eq_zero.mp (Nat.le_zero.mp hbs)
    subst hb
    simp only [chunksOfFuel, List.length_nil]
    rw [show 0 + S - 1 = S - 1 from by omega, Nat.div_eq_of_lt (by omega)]
  | succ f ih =>
    intro bs hbs
    cases bs with
    | nil =>
      simp only [chunksOfFuel, List.length_nil]
      rw [show 0 + S - 1 = S - 1 from by omega, Nat.div_eq_of_lt (by omega)]
    | cons b bs' =>
      simp only [chunksOfFuel, List.length_cons]
      rw [ih ((b :: bs').drop S)
        (by simp only [List.length_drop, List.length_cons] at hbs ⊢; omega)]
      simp only [List.length_drop, List.length_cons]
      exact ceil_div_step hS (by omega)

theorem chunksOfFuel_sizes (S : Nat) (hS : 0 < S) :
    ∀ fuel (bs : List Nat), bs.length ≤ fuel →
      ∀ c ∈ chunksOfFuel S fuel bs, 0 < c.length ∧ c.length ≤ S := by
  intro fuel
  induction fuel with
  | zero =>
    intro bs hbs
    have hb : bs = [] := List.length_eq_zero.mp (Nat.le_zero.mp hbs)
    subst hb; intro c hc; simp [chunksOfFuel] at hc
  | succ f ih =>
    intro bs hbs
    cases bs with
    | nil => intro c hc; simp [chunksOfFuel] at hc
    | cons b bs' =>
      intro c hc
      simp only [chunksOfFuel, List.mem_cons] at hc
      rcases hc with rfl | hc
      · refine ⟨?_, ?_⟩ <;> simp only [List.length_take, List.length_cons] <;> omega
      · exact ih ((b :: bs').drop S)
          (by simp only [List.length_drop, List.length_cons] at hbs ⊢; omega) c hc

theorem chunksOfFuel_dropLast (S : Nat) (hS : 0 < S) :
    ∀ fuel (bs : List Nat), bs.length ≤ fuel →
      ∀ c ∈ (chunksOfFuel S fuel bs).dropLast, c.length = S := by
  intro fuel
  induction fuel with
  | zero =>
    intro bs hbs
    have hb : bs = [] := List.length_eq_zero.mp (Nat.le_zero.mp hbs)
    subst hb; intro c hc; simp [chunksOfFuel] at hc
  | succ f ih =>
    intro bs hbs
    cases bs with
    | nil => intro c hc; simp [chunksOfFuel] at hc
    | cons b bs' =>
      intro c hc
      simp only [chunksOfFuel] at hc
      rcases hrest : chunksOfFuel S f ((b :: bs').drop S) with _ | ⟨y, ys⟩
      · rw [hrest] at hc; simp at hc
      · rw [hrest, List.dropLast_cons₂, List.mem_cons] at hc
        rcases hc with rfl | hc'
        · have hdrop : (b :: bs').drop S ≠ [] := by
            intro hnil
            rw [hnil, chunksOfFuel_nil] at hrest
            exact List.noConfusion hrest
          have hlen : S < (b :: bs').length := by
            by_contra hle
            push_neg at hle
            exact hdrop (List.drop_eq_nil_of_le hle)
          simp only [List.length_cons] at hlen
          simp only [List.length_take, List.length_cons]
          omega
        · refine ih ((b :: bs').drop S)
            (by simp only [List.length_drop, List.length_cons] at hbs ⊢; omega) c ?_
          rw [hrest]
          exact hc'

/-- C2: for a file of `n` bytes and chunk size `S > 0` the chunker produces
exactly `ceil(n / S) = (n + S - 1) / S` chunks; every chunk is nonempty and at
most `S` bytes, every chunk but the last is exactly `S` bytes; concatenating
the chunks in order gives back the file; a zero-byte file yields no chunks. -/
theorem chunksOf_spec (S : Nat) (bs : List Nat) (hS : 0 < S) :
    (chunksOf S bs).length = (bs.length + S - 1) / S ∧
    (chunksOf S bs).flatten = bs ∧
    (∀ c ∈ chunksOf S bs, 0 < c.length ∧ c.length ≤ S) ∧
    (∀ c ∈ (chunksOf S bs).dropLast, c.length = S) ∧
    (bs = [] → chunksOf S bs = []) := by
  have hS' : ¬ S = 0 := by omega
  simp only [chunksOf, hS', if_false]
  refine ⟨chunksOfFuel_length S hS bs.length bs (le_refl _),
    chunksOfFuel_flatten S hS bs.length bs (le_refl _),
    chunksOfFuel_sizes S hS bs.length bs (le_refl _),
    chunksOfFuel_dropLast S hS bs.length bs (le_refl _),
    ?_⟩
  intro hb; subst hb; rfl

/-- Witness for C2: a five-byte file with chunk size two gives three chunks
of sizes 2, 2, 1 that reassemble to the file; a zero-byte file gives none. -/
theorem chunksOf_spec_witness :
    chunksOf 2 [1, 2, 3, 4, 5] = [[1, 2], [3, 4], [5]] ∧
    ((chunksOf 2 [1, 2, 3, 4, 5]).length = ([1, 2, 3, 4, 5].length + 2 - 1) / 2 ∧
      (chunksOf 2 [1, 2, 3, 4, 5]).flatten = [1, 2, 3, 4, 5] ∧
      (∀ c ∈ chunksOf 2 [1, 2, 3, 4, 5], 0 < c.length ∧ c.length ≤ 2) ∧
      (∀ c ∈ (chunksOf 2 [1, 2, 3, 4, 5]).dropLast, c.length = 2) ∧
      ([1, 2, 3, 4, 5] = ([] : List Nat) → chunksOf 2 [1, 2, 3, 4, 5] = [])) ∧
    chunksOf 2 [] = [] :=
  ⟨by decide, chunksOf_spec 2 [1, 2, 3, 4, 5] (by decide),
    (chunksOf_spec 2 [] (by decide)).2.2.2.2 rfl⟩

/-! ## Properties of the retry loop -/

theorem tryChunk_sends_idx (net : Nat → Nat → NetOutcome) (i : Nat) :
    ∀ fuel a0, ∀ p ∈ (tryChunk net i fuel a0).1, p.1 = i := by
  intro fuel
  induction fuel with
  | zero => intro a0 p hp; simp [tryChunk] at hp
  | succ f ih =>
    intro a0 p hp
    by_cases hs : sendOk (net i a0) = true
    · simp [tryChunk, hs] at hp; simp [hp]
    · simp only [Bool.not_eq_true] at hs
      by_cases hf : f = 0
      · subst hf; simp [tryChunk, hs] at hp; simp [hp]
      · simp only [tryChunk, hs, Bool.false_eq_true, if_false, hf, List.mem_cons] at hp
        rcases hp with rfl | hp
        · rfl
        · exact ih (a0 + 1) p hp

theorem tryChunk_succ_iff (net : Nat → Nat → NetOutcome) (i : Nat) :
    ∀ fuel a0, (tryChunk net i fuel a0).2.2 = true ↔
      ∃ a, a0 ≤ a ∧ a < a0 + fuel ∧ sendOk (net i a) = true := by
  intro fuel
  induction fuel with
  | zero =>
    intro a0
    simp only [tryChunk]
    constructor
    · intro h; exact absurd h (by simp)
    · rintro ⟨a, h1, h2, _⟩; omega
  | succ f ih =>
    intro a0
    by_cases hs : sendOk (net i a0) = true
    · simp only [tryChunk, hs, if_true]
      constructor
      · intro _; exact ⟨a0, le_refl _, by omega, hs⟩
      · intro _; trivial
    · simp only [Bool.not_eq_true] at hs
      by_cases hf : f = 0
      · subst hf
        simp only [tryChunk, hs, Bool.false_eq_true, if_false, if_true]
        constructor
        · intro h; exact absurd h (by simp)
        · rintro ⟨a, h1, h2, h3⟩
          have : a = a0 := by omega
          subst this
          rw [hs] at h3
          exact absurd h3 (by simp)
      · simp only [tryChunk, hs, Bool.false_eq_true, if_false, hf, ih (a0 + 1)]
        constructor
        · rintro ⟨a, h1, h2, h3⟩; exact ⟨a, by omega, by omega, h3⟩
        · rintro ⟨a, h1, h2, h3⟩
          rcases Nat.eq_or_lt_of_le h1 with rfl | hgt
          · rw [hs] at h3; exact absurd h3 (by simp)
          · exact ⟨a, by omega, by omega, h3⟩

theorem tryChunk_fail_shape (net : Nat → Nat → NetOutcome) (i : Nat)
    (hfail : ∀ a, sendOk (net i a) = false) :
    ∀ fuel a0, (tryChunk net i fuel a0).1.length = fuel ∧
      (tryChunk net i fuel a0).2.2 = false := by
  intro fuel
  induction fuel with
  | zero => intro a0; simp [tryChunk]
  | succ f ih =>
    intro a0
    have hs := hfail a0
    by_cases hf : f = 0
    · subst hf; simp [tryChunk, hs]
    · simp only [tryChunk, hs, Bool.false_eq_true, if_false, hf, List.length_cons]
      have := ih (a0 + 1)
      exact ⟨by rw [this.1], this.2⟩

/-! ## Properties of the upload loop -/

theorem uploadChunks_sends_bounds (net : Nat → Nat → NetOutcome) (R : Nat) :
    ∀ (chs : List (List Nat)) i0 total s0,
      ∀ p ∈ (uploadChunks net R chs i0 total s0).sends,
        i0 ≤ p.1 ∧ p.1 < i0 + chs.length := by
  intro chs
  induction chs with
  | nil => intro i0 total s0 p hp; simp [uploadChunks] at hp
  | cons c rest ih =>
    intro i0 total s0 p hp
    cases ht : (tryChunk net i0 R 1).2.2 with
    | true =>
      simp only [uploadChunks, ht, if_true, List.mem_append] at hp
      rcases hp with hp | hp
      · have := tryChunk_sends_idx net i0 R 1 p hp
        simp only [List.length_cons]; omega
      · have := ih (i0 + 1) total (s0 + 1) p hp
        simp only [List.length_cons]; omega
    | false =>
      simp only [uploadChunks, ht, Bool.false_eq_true, if_false] at hp
      have := tryChunk_sends_idx net i0 R 1 p hp
      simp only [List.length_cons]; omega

theorem pairwise_le_of_const {l : List Nat} {v : Nat} (h : ∀ x ∈ l, x = v) :
    l.Pairwise (· ≤ ·) := by
  induction l with
  | nil => exact List.Pairwise.nil
  | cons x xs ih =>
    rw [List.pairwise_cons]
    refine ⟨?_, ih (fun y hy => h y (List.mem_cons_of_mem x hy))⟩
    intro y hy
    rw [h x (List.mem_cons_self x xs), h y (List.mem_cons_of_mem x hy)]

theorem uploadChunks_sends_pairwise (net : Nat → Nat → NetOutcome) (R : Nat) :
    ∀ (chs : List (List Nat)) i0 total s0,
      ((uploadChunks net R chs i0 total s0).sends.map Prod.fst).Pairwise (· ≤ ·) := by
  intro chs
  induction chs with
  | nil => intro i0 total s0; simp [uploadChunks]
  | cons c rest ih =>
    intro i0 total s0
    cases ht : (tryChunk net i0 R 1).2.2 with
    | true =>
      simp only [uploadChunks, ht, if_true, List.map_append, List.pairwise_append]
      refine ⟨@pairwise_le_of_const _ i0 ?_, ih (i0 + 1) total (s0 + 1), ?_⟩
      · intro x hx
        rcases List.mem_map.mp hx with ⟨p, hp, rfl⟩
        exact tryChunk_sends_idx net i0 R 1 p hp
      · intro x hx y hy
        rcases List.mem_map.mp hx with ⟨p, hp, rfl⟩
        rcases List.mem_map.mp hy with ⟨q, hq, rfl⟩
        have hxi := tryChunk_sends_idx net i0 R 1 p hp
        have hyi := (uploadChunks_sends_bounds net R rest (i0 + 1) total (s0 + 1) q hq).1
        omega
    | false =>
      simp only [uploadChunks, ht, Bool.false_eq_true, if_false]
      refine @pairwise_le_of_const _ i0 ?_
      intro x hx
      rcases List.mem_map.mp hx with ⟨p, hp, rfl⟩
      exact tryChunk_sends_idx net i0 R 1 p hp

theorem uploadChunks_ack (net : Nat → Nat → NetOutcome) (R : Nat) :
    ∀ (chs : List (List Nat)) i0 total s0 i a, i0 ≤ i →
      (i + 1, a) ∈ (uploadChunks net R chs i0 total s0).sends →
      ∃ b, 1 ≤ b ∧ b ≤ R ∧ sendOk (net i b) = true := by
  intro chs
  induction chs with
  | nil => intro i0 total s0 i a _ hp; simp [uploadChunks] at hp
  | cons c rest ih =>
    intro i0 total s0 i a hle hp
    cases ht : (tryChunk net i0 R 1).2.2 with
    | true =>
      rcases Nat.eq_or_lt_of_le hle with rfl | hlt
      · rcases (tryChunk_succ_iff net i0 R 1).mp ht with ⟨b, hb1, hb2, hb3⟩
        exact ⟨b, hb1, by omega, hb3⟩
      · simp only [uploadChunks, ht, if_true, List.mem_append] at hp
        rcases hp with hp | hp
        · have := tryChunk_sends_idx net i0 R 1 _ hp
          simp at this; omega
        · exact ih (i0 + 1) total (s0 + 1) i a (by omega) hp
    | false =>
      simp only [uploadChunks, ht, Bool.false_eq_true, if_false] at hp
      have := tryChunk_sends_idx net i0 R 1 _ hp
      simp at this; omega

theorem uploadChunks_sent_mono (net : Nat → Nat → NetOutcome) (R : Nat) :
    ∀ (chs : List (List Nat)) i0 total s0,
      s0 ≤ (uploadChunks net R chs i0 total s0).sent := by
  intro chs
  induction chs with
  | nil => intro i0 total s0; simp [uploadChunks]
  | cons c rest ih =>
    intro i0 total s0
    cases ht : (tryChunk net i0 R 1).2.2 with
    | true =>
      simp only [uploadChunks, ht, if_true]
      have := ih (i0 + 1) total (s0 + 1)
      omega
    | false => simp [uploadChunks, ht]

theorem uploadChunks_stop (net : Nat → Nat → NetOutcome) (R : Nat) :
    ∀ (chs : List (List Nat)) i0 total s0,
      (uploadChunks net R chs i0 total s0).retval = false →
      ∀ p ∈ (uploadChunks net R chs i0 total s0).sends,
        p.1 + s0 ≤ (uploadChunks net R chs i0 total s0).sent + i0 := by
  intro chs
  induction chs with
  | nil => intro i0 total s0 hret; simp [uploadChunks] at hret
  | cons c rest ih =>
    intro i0 total s0 hret p hp
    cases ht : (tryChunk net i0 R 1).2.2 with
    | true =>
      simp only [uploadChunks, ht, if_true] at hret hp ⊢
      rcases List.mem_append.mp hp with hp' | hp'
      · have hx := tryChunk_sends_idx net i0 R 1 p hp'
        have hm := uploadChunks_sent_mono net R rest (i0 + 1) total (s0 + 1)
        omega
      · have := ih (i0 + 1) total (s0 + 1) hret p hp'
        omega
    | false =>
      simp only [uploadChunks, ht, Bool.false_eq_true, if_false] at hp ⊢
      have hx := tryChunk_sends_idx net i0 R 1 p hp
      omega

theorem uploadChunks_abort (net : Nat → Nat → NetOutcome) (R : Nat) (i : Nat)
    (hfail : ∀ a, sendOk (net i a) = false) :
    ∀ (chs : List (List Nat)) i0 total s0, i0 ≤ i → i < i0 + chs.length →
      (∀ j, i0 ≤ j → j < i → ∃ a, 1 ≤ a ∧ a ≤ R ∧ sendOk (net j a) = true) →
      (uploadChunks net R chs i0 total s0).retval = false ∧
      (uploadChunks net R chs i0 total s0).sent = s0 + (i - i0) ∧
      ((uploadChunks net R chs i0 total s0).sends.filter (fun p => p.1 = i)).length = R ∧
      (∀ p ∈ (uploadChunks net R chs i0 total s0).sends, i0 ≤ p.1 ∧ p.1 ≤ i) ∧
      Msg.chunkAborted (i + 1) R ∈ (uploadChunks net R chs i0 total s0).msgs := by
  intro chs
  induction chs with
  | nil =>
    intro i0 total s0 hle hlt hpred
    simp only [List.length_nil] at hlt
    omega
  | cons c rest ih =>
    intro i0 total s0 hle hlt hpred
    rcases Nat.eq_or_lt_of_le hle with rfl | hlt0
    · -- the failing chunk is the current one
      have ht : (tryChunk net i0 R 1).2.2 = false := by
        rw [← Bool.not_eq_true, tryChunk_succ_iff]
        rintro ⟨a, _, _, hsa⟩
        rw [hfail a] at hsa
        exact absurd hsa (by simp)
      have hshape := tryChunk_fail_shape net i0 hfail R 1
      simp only [uploadChunks, ht, Bool.false_eq_true, if_false]
      refine ⟨trivial, by omega, ?_, ?_, ?_⟩
      · rw [List.filter_eq_self.mpr ?_, hshape.1]
        intro p hp
        have := tryChunk_sends_idx net i0 R 1 p hp
        simp [this]
      · intro p hp
        have := tryChunk_sends_idx net i0 R 1 p hp
        omega
      · simp
    · -- the current chunk precedes the failing one and is delivered
      rcases hpred i0 (le_refl _) hlt0 with ⟨a, ha1, ha2, ha3⟩
      have ht : (tryChunk net i0 R 1).2.2 = true :=
        (tryChunk_succ_iff net i0 R 1).mpr ⟨a, ha1, by omega, ha3⟩
      have ihm := ih (i0 + 1) total (s0 + 1) (by omega)
        (by simp only [List.length_cons] at hlt; omega)
        (fun j hj1 hj2 => hpred j (by omega) hj2)
      simp only [uploadChunks, ht, if_true]
      refine ⟨ihm.1, by have := ihm.2.1; omega, ?_, ?_, ?_⟩
      · rw [List.filter_append, List.length_append,
          List.filter_eq_nil_iff.mpr ?_, List.length_nil, Nat.zero_add, ihm.2.2.1]
        intro p hp
        have := tryChunk_sends_idx net i0 R 1 p hp
        simp [this]; omega
      · intro p hp
        rcases List.mem_append.mp hp with hp' | hp'
        · have := tryChunk_sends_idx net i0 R 1 p hp'
          omega
        · have := ihm.2.2.2.1 p hp'
          omega
      · exact List.mem_append_right _ ihm.2.2.2.2

/-! ## Claim theorems about the upload loop -/

/-- C1: with `max_retries = 5`, if every send attempt for chunk `i` fails
(the transport or server permanently fails there) while every earlier chunk is
deliverable within the budget, then the sender issues exactly `max_retries`
attempts for chunk `i`, the upload aborts (returns failure), and no send
attempt is issued for any chunk after `i`. -/
theorem upload_abort_after_max_retries (net : Nat → Nat → NetOutcome) (S : Nat)
    (bytes : List Nat) (i : Nat)
    (hi : i < (chunksOf S bytes).length)
    (hfail : ∀ a, sendOk (net i a) = false)
    (hpred : ∀ j, j < i → ∃ a, 1 ≤ a ∧ a ≤ max_retries ∧ sendOk (net j a) = true) :
    ((upload_file net max_retries S (some bytes)).sends.filter
        (fun p => p.1 = i)).length = max_retries ∧
    (upload_file net max_retries S (some bytes)).retval = false ∧
    ∀ p ∈ (upload_file net max_retries S (some bytes)).sends, p.1 ≤ i := by
  have key := uploadChunks_abort net max_retries i hfail (chunksOf S bytes) 0
    (chunksOf S bytes).length 0 (Nat.zero_le _) (by omega)
    (fun j _ hj2 => hpred j hj2)
  simp only [upload_file]
  exact ⟨key.2.2.1, key.1, fun p hp => (key.2.2.2.1 p hp).2⟩

/-- Witness for C1: chunk 2 of the five-chunk file permanently gets status
500 while chunks 0 and 1 get 200; exactly five attempts are made for chunk 2,
the upload fails, and chunks 3 and 4 are never attempted. -/
theorem upload_abort_after_max_retries_witness :
    (2 < (chunksOf 1 bytes5).length ∧ (∀ a, sendOk (netFailAt 2 2 a) = false)) ∧
    ((upload_file (netFailAt 2) max_retries 1 (some bytes5)).sends.filter
        (fun p => p.1 = 2)).length = max_retries ∧
    (upload_file (netFailAt 2) max_retries 1 (some bytes5)).retval = false ∧
    ∀ p ∈ (upload_file (netFailAt 2) max_retries 1 (some bytes5)).sends, p.1 ≤ 2 := by
  refine ⟨⟨by decide, fun a => rfl⟩, ?_⟩
  refine upload_abort_after_max_retries (netFailAt 2) 1 bytes5 2 (by decide)
    (fun a => rfl) ?_
  intro j hj
  refine ⟨1, le_refl 1, by decide, ?_⟩
  interval_cases j <;> rfl

/-- C5: the sender is strictly sequential: the chunk indices of the send
trace are nondecreasing in order of issuance (no out-of-order or parallel
sends); a send attempt for chunk `i + 1` happens only if some attempt for
chunk `i` within the budget was acknowledged with status 200; and once the
upload aborts every attempted chunk index is at most the failing chunk's
index (which equals the count of delivered chunks). -/
theorem upload_sequential (net : Nat → Nat → NetOutcome) (R S : Nat) (bytes : List Nat) :
    ((upload_file net R S (some bytes)).sends.map Prod.fst).Pairwise (· ≤ ·) ∧
    (∀ i a, (i + 1, a) ∈ (upload_file net R S (some bytes)).sends →
      ∃ b, 1 ≤ b ∧ b ≤ R ∧ sendOk (net i b) = true) ∧
    ((upload_file net R S (some bytes)).retval = false →
      ∀ p ∈ (upload_file net R S (some bytes)).sends,
        p.1 ≤ (upload_file net R S (some bytes)).sent) := by
  simp only [upload_file]
  refine ⟨uploadChunks_sends_pairwise net R _ 0 _ 0, ?_, ?_⟩
  · intro i a hp
    exact uploadChunks_ack net R _ 0 _ 0 i a (Nat.zero_le _) hp
  · intro hret p hp
    have := uploadChunks_stop net R _ 0 _ 0 hret p hp
    omega

/-- Witness for C5: chunk 1 of a two-chunk file is attempted only because
chunk 0 was acknowledged, and in an aborted-at-chunk-0 upload every attempted
index is at most the count of delivered chunks. -/
theorem upload_sequential_witness :
    (∃ b, 1 ≤ b ∧ b ≤ 5 ∧ sendOk (netAllOk 0 b) = true) ∧
    (∀ p ∈ (upload_file (netFailAt 0) 5 1 (some bytes5)).sends,
      p.1 ≤ (upload_file (netFailAt 0) 5 1 (some bytes5)).sent) :=
  ⟨(upload_sequential netAllOk 5 1 [7, 8]).2.1 0 1 (by decide),
   (upload_sequential (netFailAt 0) 5 1 bytes5).2.2 (by decide)⟩

/-- C6 counterexample: the value `upload_file` returns on an aborted upload
is the bare boolean `False` and reports no counts: an upload of the
five-chunk file in which 2 chunks succeed before the abort and one in which 0
chunks succeed return identical results, so the returned failure result
cannot report `chunks_sent` (nor `chunks_total`). -/
theorem upload_failure_result_no_counts :
    (upload_file (netFailAt 2) max_retries 1 (some bytes5)).retval = false ∧
    (upload_file (netFailAt 0) max_retries 1 (some bytes5)).retval = false ∧
    (upload_file (netFailAt 2) max_retries 1 (some bytes5)).sent = 2 ∧
    (upload_file (netFailAt 0) max_retries 1 (some bytes5)).sent = 0 ∧
    (upload_file (netFailAt 2) max_retries 1 (some bytes5)).retval =
      (upload_file (netFailAt 0) max_retries 1 (some bytes5)).retval := by
  decide

/-- C6 (amended): when the upload aborts because chunk `i` exhausted the
retry budget (all earlier chunks deliverable), `upload_file` returns the
plain boolean `False`; the internal `successful_chunks` counter equals `i`,
the number of chunks delivered before the abort; and the failure line printed
reports the failing chunk's 1-based position `i + 1` and the retry budget —
the counts are not part of the returned result. -/
theorem upload_abort_reports (net : Nat → Nat → NetOutcome) (S : Nat)
    (bytes : List Nat) (i : Nat)
    (hi : i < (chunksOf S bytes).length)
    (hfail : ∀ a, sendOk (net i a) = false)
    (hpred : ∀ j, j < i → ∃ a, 1 ≤ a ∧ a ≤ max_retries ∧ sendOk (net j a) = true) :
    (upload_file net max_retries S (some bytes)).retval = false ∧
    (upload_file net max_retries S (some bytes)).sent = i ∧
    Msg.chunkAborted (i + 1) max_retries ∈
      (upload_file net max_retries S (some bytes)).msgs := by
  have key := uploadChunks_abort net max_retries i hfail (chunksOf S bytes) 0
    (chunksOf S bytes).length 0 (Nat.zero_le _) (by omega)
    (fun j _ hj2 => hpred j hj2)
  simp only [upload_file, List.mem_cons]
  exact ⟨key.1, by have := key.2.1; omega, Or.inr (Or.inr key.2.2.2.2)⟩

/-- Witness for C6 (amended): chunk index 2 of the 5-chunk file fails every
attempt; the upload returns `False`, 2 chunks were delivered before the
abort, the total is 5, and the printed failure line carries position 3 and
budget 5. -/
theorem upload_abort_reports_witness :
    (chunksOf 1 bytes5).length = 5 ∧
    (upload_file (netFailAt 2) max_retries 1 (some bytes5)).retval = false ∧
    (upload_file (netFailAt 2) max_retries 1 (some bytes5)).sent = 2 ∧
    Msg.chunkAborted (2 + 1) max_retries ∈
      (upload_file (netFailAt 2) max_retries 1 (some bytes5)).msgs := by
  have h := upload_abort_reports (netFailAt 2) 1 bytes5 2 (by decide) (fun a => rfl)
    (by intro j hj
        refine ⟨1, le_refl 1, by decide, ?_⟩
        interval_cases j <;> rfl)
  exact ⟨by decide, h.1, h.2.1, h.2.2⟩

/-- C7: a missing input file fails immediately: `upload_file` prints the
not-found message, returns `False`, and issues no send attempt at all (so
the failure is not retried and no network activity precedes it). -/
theorem upload_file_not_found (net : Nat → Nat → NetOutcome) (R S : Nat) :
    upload_file net R S none = ⟨[], 0, false, [Msg.fileNotFound]⟩ := rfl

/-- C10: an existing zero-byte file yields zero chunks, so `upload_file`
returns `True` while issuing no send attempt: the server never observes any
chunk for the file — in particular no final chunk or terminal signal. -/
theorem upload_empty_file (net : Nat → Nat → NetOutcome) (R S : Nat) :
    upload_file net R S (some []) =
      ⟨[], 0, true, [Msg.headerMsg 0 S, Msg.totalMsg 0, Msg.uploadedMsg 0 0]⟩ := by
  simp only [upload_file, chunksOf, List.length_nil, chunksOfFuel_nil, ite_self]
  rfl

/-! ## Claim theorems about a single send attempt and the probe -/

/-- C4: every request issued by `_send_chunk_safe` uses exactly the
abbreviated query keys `f`, `d`, `c`, `t`, `end`, bound to the filename, the
base64-encoded payload, the decimal index, the decimal total, and the final
flag, which is `"1"` exactly when `index = total - 1` and `"0"` otherwise. -/
theorem sendChunkSafe_wire_format (fn : String) (data : List Nat)
    (i t a : Nat) (o : NetOutcome) (hit : i < t) :
    (sendChunkSafe fn data i t a o).requestParams =
      [("f", fn), ("d", String.mk (b64encode data)), ("c", toString i),
       ("t", toString t), ("end", if i = t - 1 then "1" else "0")] ∧
    (sendChunkSafe fn data i t a o).requestParams.map Prod.fst =
      ["f", "d", "c", "t", "end"] ∧
    (∀ v : String, ("end", v) ∈ (sendChunkSafe fn data i t a o).requestParams →
      (v = "1" ↔ i = t - 1)) := by
  have hcond : ((i : Int) = (t : Int) - 1) = (i = t - 1) := by
    apply propext; constructor <;> intro h <;> omega
  have hparams : (sendChunkSafe fn data i t a o).requestParams =
      [("f", fn), ("d", String.mk (b64encode data)), ("c", toString i),
       ("t", toString t), ("end", if i = t - 1 then "1" else "0")] := by
    simp only [sendChunkSafe, sendParams, hcond]
  refine ⟨hparams, by rw [hparams]; rfl, ?_⟩
  intro v hv
  rw [hparams] at hv
  simp only [List.mem_cons, List.not_mem_nil, or_false, Prod.mk.injEq] at hv
  rcases hv with ⟨h1, _⟩ | ⟨h1, _⟩ | ⟨h1, _⟩ | ⟨h1, _⟩ | ⟨_, hv⟩
  · exact absurd h1 (by decide)
  · exact absurd h1 (by decide)
  · exact absurd h1 (by decide)
  · exact absurd h1 (by decide)
  · subst hv
    by_cases hif : i = t - 1
    · rw [if_pos hif]
      exact iff_of_true rfl hif
    · rw [if_neg hif]
      exact iff_of_false (by decide) hif

/-- Witness for C4: the single chunk (index 0 of 1) of a two-byte file is
framed with keys `f`, `d`, `c`, `t`, `end` and final flag `"1"`. -/
theorem sendChunkSafe_wire_format_witness :
    0 < 1 ∧
    (sendChunkSafe "doc.txt" [104, 105] 0 1 1 (.status 200)).requestParams =
      [("f", "doc.txt"), ("d", String.mk (b64encode [104, 105])), ("c", toString 0),
       ("t", toString 1), ("end", if 0 = 1 - 1 then "1" else "0")] :=
  ⟨by decide,
    (sendChunkSafe_wire_format "doc.txt" [104, 105] 0 1 1 (.status 200) (by decide)).1⟩

/-- C8: `_send_chunk_safe` never lets an exception escape (it is a total
function of the request outcome), and every outcome other than an HTTP 200
response — any other status code, a timeout, a connection error, or any other
exception — is a retryable failure: the function returns `False` after
printing at least one error diagnostic, so no error is silently swallowed. -/
theorem sendChunkSafe_error_handling (fn : String) (data : List Nat)
    (i t a : Nat) (o : NetOutcome) (ho : o ≠ .status 200) :
    (sendChunkSafe fn data i t a o).ok = false ∧
    ∃ d ∈ (sendChunkSafe fn data i t a o).diags, isErrDiag d = true := by
  cases o with
  | status c =>
    have hc : c ≠ 200 := fun h => ho (by rw [h])
    constructor
    · simp [sendChunkSafe, sendOk, hc]
    · refine ⟨Diag.httpErrMsg c, ?_, rfl⟩
      simp [sendChunkSafe, hc]
  | timeout =>
    refine ⟨rfl, Diag.timeoutMsg, ?_, rfl⟩
    simp [sendChunkSafe]
  | connError =>
    refine ⟨rfl, Diag.connErrMsg, ?_, rfl⟩
    simp [sendChunkSafe]
  | otherExc =>
    refine ⟨rfl, Diag.excMsg, ?_, rfl⟩
    simp [sendChunkSafe]

/-- Witness for C8: a timeout on the send of chunk 0 of 1 returns `False`
and emits the timeout diagnostic. -/
theorem sendChunkSafe_error_handling_witness :
    NetOutcome.timeout ≠ NetOutcome.status 200 ∧
    (sendChunkSafe "doc.txt" [104] 0 1 1 .timeout).ok = false ∧
    ∃ d ∈ (sendChunkSafe "doc.txt" [104] 0 1 1 .timeout).diags, isErrDiag d = true :=
  ⟨by decide, sendChunkSafe_error_handling "doc.txt" [104] 0 1 1 .timeout (by decide)⟩

/-- C9 counterexample: HTTP 204 is a 2xx response, yet the probe reports the
server unhealthy — `test_connection_simple` accepts exactly status 200, not
"any 2xx". -/
theorem test_connection_not_any_2xx :
    test_connection_simple (.status 204) = false ∧
    healthySpec2xx (.status 204) = true := by decide

/-- C9 (amended): the connectivity probe reports the server healthy if and
only if the probe request yields exactly HTTP status 200. -/
theorem test_connection_healthy_iff (o : NetOutcome) :
    test_connection_simple o = true ↔ o = .status 200 := by
  cases o with
  | status c => simp [test_connection_simple]
  | timeout => simp [test_connection_simple]
  | connError => simp [test_connection_simple]
  | otherExc => simp [test_connection_simple]

end Client
